import Mathlib

/-!
Verification development for the sc-web bridge (bridge/index.js).

The bridge supervises an sclang child process, stages eval requests as
temporary `.scd` files, scans the child's output for lifecycle markers,
sanitizes the output and fans it out to WebSocket clients, and serves
SuperCollider help files over HTTP with a directory-traversal guard.

Strings are modelled as `List Char`.  JavaScript regular-expression
replacement is modelled by explicit scanners that mirror the semantics of
`String.prototype.replace` with the `g` and `m` flags: matches are sought
left to right, `^` holds at position 0 and right after a line terminator of
the original string, and the scan resumes at the end of each match.
-/

namespace SCWeb

/-! ## Character classes (ECMAScript) -/

/-- ECMAScript WhiteSpace together with LineTerminator: the character set
matched by the regexp class `\s` and trimmed by `String.prototype.trimEnd`. -/
def jsSpaceChars : List Char :=
  [' ', '\t', '\n', '\r', '\u000B', '\u000C', '\u00A0', '\u1680',
   '\u2000', '\u2001', '\u2002', '\u2003', '\u2004', '\u2005', '\u2006',
   '\u2007', '\u2008', '\u2009', '\u200A', '\u2028', '\u2029', '\u202F',
   '\u205F', '\u3000', '\uFEFF']

def isJsSpace (c : Char) : Bool := jsSpaceChars.contains c

/-- ECMAScript LineTerminator: the characters after which a multiline `^`
anchor matches. -/
def lineTermChars : List Char := ['\n', '\r', '\u2028', '\u2029']

def isLineTerm (c : Char) : Bool := lineTermChars.contains c

/-- `String.prototype.trimEnd`: remove trailing whitespace and line
terminators. -/
def jsTrimEnd (s : List Char) : List Char :=
  (s.reverse.dropWhile isJsSpace).reverse

/-! ## Decimal rendering of numbers (template literals) -/

/-- Decimal digit character. -/
def digitChar (d : Nat) : Char := Char.ofNat (48 + d)

/-- Fueled digit accumulation; `natChars` supplies enough fuel. -/
def natCharsAux : Nat → Nat → List Char
  | 0, _ => []
  | _ + 1, 0 => []
  | f + 1, n + 1 =>
    natCharsAux f ((n + 1) / 10) ++ [digitChar ((n + 1) % 10)]

/-- Decimal rendering of a natural number, as produced by a JavaScript
template literal interpolating a number. -/
def natChars (n : Nat) : List Char :=
  if n = 0 then ['0'] else natCharsAux n n

/-- Decimal valuation of a digit string (proof device for injectivity of
`natChars`). -/
def digitVal (l : List Char) : Nat :=
  l.foldl (fun a c => a * 10 + (c.toNat - 48)) 0

/-! ## JSON.stringify for strings -/

def hexChar (d : Nat) : Char :=
  if d < 10 then Char.ofNat (48 + d) else Char.ofNat (87 + d)

/-- Escape of one character inside a JSON string literal. -/
def jsonEscapeChar (c : Char) : List Char :=
  if c = '"' then ['\\', '"']
  else if c = '\\' then ['\\', '\\']
  else if c = '\n' then ['\\', 'n']
  else if c = '\r' then ['\\', 'r']
  else if c = '\t' then ['\\', 't']
  else if c = '\u0008' then ['\\', 'b']
  else if c = '\u000C' then ['\\', 'f']
  else if c.toNat < 32 then
    '\\' :: 'u' :: '0' :: '0' :: [hexChar (c.toNat / 16), hexChar (c.toNat % 16)]
  else [c]

/-- `JSON.stringify` applied to a string value. -/
def jsonStr (s : List Char) : List Char :=
  '"' :: (s.map jsonEscapeChar).flatten ++ ['"']

/-! ## The sanitizer (function `sanitize` in the source)

Each `.replace(/^…/gm, '')` call is one pass of the scanner `runPass`
driven by a matcher that returns the length of the match at the current
position (0 when there is no match).  The final two `.replace` calls
normalize line endings. -/

def promptPat : List Char := "sc3>".data

/-- Matcher for the regexp `^sc3>\s*`: the REPL prompt and any following
whitespace. -/
def promptLen (s : List Char) : Nat :=
  if promptPat.isPrefixOf s then
    promptPat.length + ((s.drop promptPat.length).takeWhile isJsSpace).length
  else 0

def evalEchoPat : List Char := "load(\"/tmp/sc_eval_".data

def closePat : List Char := "\");".data

/-- Add one for the optional trailing newline (`\n?`) after position
`base`. -/
def optNL (s : List Char) (base : Nat) : Nat :=
  match (s.drop base).head? with
  | some c => if c = '\n' then base + 1 else base
  | none => base

/-- Matcher for `^load\("\/tmp\/sc_eval_[^"]*"\);\n?`: the echo of an
internal eval load directive.  The `[^"]*` run is the maximal quote-free
run after the literal prefix; the match succeeds iff it is followed by the
closing `");` (greedy matching with backtracking degenerates to this, as
the run cannot contain the quote). -/
def evalEchoLen (s : List Char) : Nat :=
  if evalEchoPat.isPrefixOf s then
    if closePat.isPrefixOf
        ((s.drop evalEchoPat.length).drop
          (((s.drop evalEchoPat.length).takeWhile (fun c => !(c == '"'))).length)) then
      optNL s (evalEchoPat.length
        + ((s.drop evalEchoPat.length).takeWhile (fun c => !(c == '"'))).length
        + closePat.length)
    else 0
  else 0

def startupPatA : List Char := "load(\"/".data

def startupPatB : List Char := "startup.scd".data

/-- Matcher for `^load\("\/[^"]*startup\.scd"\);\n?`: the echo of the
startup-script load directive.  The quote-free run after `load("/` must end
with `startup.scd` and be followed by `");`. -/
def startupEchoLen (s : List Char) : Nat :=
  if startupPatA.isPrefixOf s then
    if startupPatB.isSuffixOf
          ((s.drop startupPatA.length).takeWhile (fun c => !(c == '"')))
        ∧ closePat.isPrefixOf
            ((s.drop startupPatA.length).drop
              (((s.drop startupPatA.length).takeWhile
                (fun c => !(c == '"'))).length)) then
      optNL s (startupPatA.length
        + ((s.drop startupPatA.length).takeWhile (fun c => !(c == '"'))).length
        + closePat.length)
    else 0
  else 0

def cmdPat : List Char := "CmdPeriod.run;".data

/-- Matcher for `^CmdPeriod\.run;\n?`: the echo of the stop command. -/
def cmdLen (s : List Char) : Nat :=
  if cmdPat.isPrefixOf s then optNL s cmdPat.length else 0

/-- Whether the match of length `k` at the head of `s` ends with a line
terminator (then the position after it is again a line start). -/
def lastIsTerm (s : List Char) (k : Nat) : Bool :=
  match (s.take k).getLast? with
  | some c => isLineTerm c
  | none => false

/-- One global anchored-replace pass, with explicit fuel (structural
recursion); `runPass` supplies fuel `s.length`, which is always enough
because every match is nonempty. -/
def runPassF (m : List Char → Nat) : Nat → Bool → List Char → List Char
  | 0, _, s => s
  | _ + 1, _, [] => []
  | f + 1, atStart, c :: cs =>
    let k := m (c :: cs)
    if atStart = true ∧ 0 < k then
      runPassF m f (lastIsTerm (c :: cs) k) ((c :: cs).drop k)
    else
      c :: runPassF m f (isLineTerm c) cs

/-- One `.replace(/^…/gm, '')` pass over a whole string. -/
def runPass (m : List Char → Nat) (b : Bool) (s : List Char) : List Char :=
  runPassF m s.length b s

/-- The pass `.replace(/\r\n/g, '\n')`. -/
def passCRLF : List Char → List Char
  | [] => []
  | [c] => [c]
  | c :: c2 :: rest =>
    if c = '\r' ∧ c2 = '\n' then '\n' :: passCRLF rest
    else c :: passCRLF (c2 :: rest)

/-- The pass `.replace(/\r/g, '\n')`. -/
def passCR (s : List Char) : List Char :=
  s.map (fun c => if c = '\r' then '\n' else c)

/-- The `sanitize` function of the bridge: strip the REPL prompt, the
echoes of internal load directives and of the stop command, and normalize
line endings. -/
def sanitize (s : List Char) : List Char :=
  passCR (passCRLF
    (runPass cmdLen true
      (runPass startupEchoLen true
        (runPass evalEchoLen true
          (runPass promptLen true s)))))

/-! ## Bridge state and effects -/

/-- Substring containment, as `String.prototype.includes`. -/
def containsSub (s pat : List Char) : Bool :=
  (List.range (s.length + 1)).any (fun i => pat.isPrefixOf (s.drop i))

def compileMarker : List Char := "compile done".data

def bootMarker : List Char := "=== SuperCollider server booted ===".data

def STARTUP_SCD : List Char := "/home/scuser/sc/startup.scd".data

/-- The bootstrap directive written once after the compile marker. -/
def loadStartupCmd : List Char :=
  "load(".data ++ jsonStr STARTUP_SCD ++ ");\n".data

/-- Module-level mutable state of the bridge. -/
structure BridgeState where
  startupSent : Bool
  sclangAlive : Bool
  evalCounter : Nat
  deriving DecidableEq, Repr

/-- Observable effects of the bridge, in emission order: broadcasts to all
clients, direct sends to one client, writes to the child's stdin, staging
artifact writes, scheduled timers, and the child-exit event itself (kept in
the trace as a reference point for temporal properties). -/
inductive Out where
  | post (t : List Char)
  | status (b : Bool)
  | sendPost (t : List Char)
  | sendStatus (b : Bool)
  | stdinWrite (t : List Char)
  | fileWrite (name content : List Char)
  | unlinkTimer (ms : Nat) (name : List Char)
  | spawnTimer (ms : Nat)
  | exitEvt
  deriving DecidableEq, Repr

/-- Staging artifact name: `path.join(os.tmpdir(), `sc_eval_${Date.now()}_${evalCounter++}.scd`)`. -/
def evalFileName (now ctr : Nat) : List Char :=
  "/tmp/sc_eval_".data ++ natChars now ++ '_' :: natChars ctr ++ ".scd".data

/-- Artifact contents: the code, trailing whitespace removed, wrapped in a
single enclosing block. -/
def wrapCode (code : List Char) : List Char :=
  "(\n".data ++ jsTrimEnd code ++ "\n)\n".data

/-- The load directive naming a staging artifact. -/
def loadCmd (file : List Char) : List Char :=
  "load(".data ++ jsonStr file ++ ");\n".data

/-- The TTL after which the staging artifact is deleted. -/
def EVAL_TTL_MS : Nat := 15000

/-- `evalCode`: write the wrapped code to a fresh staging artifact, write a
load directive to the child's stdin, and schedule deletion of the artifact
after the fixed TTL. -/
def evalCode (st : BridgeState) (now : Nat) (code : List Char) :
    BridgeState × List Out :=
  let file := evalFileName now st.evalCounter
  ({ st with evalCounter := st.evalCounter + 1 },
   [Out.fileWrite file (wrapCode code),
    Out.stdinWrite (loadCmd file),
    Out.unlinkTimer EVAL_TTL_MS file])

/-- Parsed client messages (the `msg.type` dispatch of the ws message
handler); anything else is dropped silently. -/
inductive CMsg where
  | eval (code : List Char)
  | stop
  | malformed
  deriving DecidableEq, Repr

def notReadyText : List Char := "[bridge] sclang not ready\n".data

def stopCmdText : List Char := "CmdPeriod.run;\n".data

/-- The ws `message` handler: `eval` is rejected with a direct post unless
sclang is alive, otherwise dispatched through `evalCode`; `stop` writes the
interrupt directive only when sclang is alive; malformed messages are
dropped. -/
def handleMessage (st : BridgeState) (now : Nat) (m : CMsg) :
    BridgeState × List Out :=
  match m with
  | CMsg.eval code =>
    if st.sclangAlive = false then
      (st, [Out.sendPost notReadyText])
    else
      evalCode st now code
  | CMsg.stop =>
    if st.sclangAlive then (st, [Out.stdinWrite stopCmdText]) else (st, [])
  | CMsg.malformed => (st, [])

/-- The ws `connection` handler: register the client and immediately send
it a single status message reflecting the current state. -/
def handleConnection (clients : List Nat) (newClient : Nat)
    (st : BridgeState) : List Nat × List Out :=
  (clients ++ [newClient], [Out.sendStatus st.sclangAlive])

/-- `handleOutput`: scan a chunk of child output for the two lifecycle
markers (sending the startup directive resp. broadcasting `status:true` at
most once each), then sanitize the chunk and broadcast it as a post when
the sanitized text is nonempty. -/
def handleOutput (st : BridgeState) (raw : List Char) :
    BridgeState × List Out :=
  let p1 :=
    if st.startupSent = false ∧ containsSub raw compileMarker then
      ({ st with startupSent := true }, [Out.stdinWrite loadStartupCmd])
    else (st, [])
  let p2 :=
    if p1.1.sclangAlive = false ∧ containsSub raw bootMarker then
      ({ p1.1 with sclangAlive := true }, [Out.status true])
    else (p1.1, [])
  let text := sanitize raw
  let o3 := if text = [] then [] else [Out.post text]
  (p2.1, p1.2 ++ (p2.2 ++ o3))

/-- The formatted exit notice. -/
def exitMsgText (code sig : List Char) : List Char :=
  "\n[sclang exited: code=".data ++ code ++ " signal=".data ++ sig
    ++ "] restarting in 3 s…\n".data

/-- The `exit` handler: mark sclang dead, broadcast the notice and a
`status:false`, and schedule a respawn after 3 seconds. -/
def handleExit (st : BridgeState) (code sig : List Char) :
    BridgeState × List Out :=
  ({ st with sclangAlive := false },
   [Out.exitEvt, Out.post (exitMsgText code sig), Out.status false,
    Out.spawnTimer 3000])

/-- Child-process events seen by the supervisor: an output chunk, process
exit, and the scheduled respawn (`startSclang`, which resets
`startupSent`). -/
inductive BEvent where
  | chunk (raw : List Char)
  | exited (code sig : List Char)
  | respawn
  deriving DecidableEq, Repr

def stepE (st : BridgeState) : BEvent → BridgeState × List Out
  | BEvent.chunk raw => handleOutput st raw
  | BEvent.exited code sig => handleExit st code sig
  | BEvent.respawn => ({ st with startupSent := false }, [])

/-- Run a sequence of child events, accumulating the trace of effects. -/
def runE (st : BridgeState) : List BEvent → BridgeState × List Out
  | [] => (st, [])
  | e :: es =>
    let r := stepE st e
    let rs := runE r.1 es
    (rs.1, r.2 ++ rs.2)

/-- Run a sequence of output chunks only. -/
def runChunks (st : BridgeState) (cs : List (List Char)) :
    BridgeState × List Out :=
  runE st (cs.map BEvent.chunk)

/-- Run a sequence of timed client messages. -/
def runMsgs (st : BridgeState) : List (Nat × CMsg) → BridgeState × List Out
  | [] => (st, [])
  | (now, m) :: ms =>
    let r := handleMessage st now m
    let rs := runMsgs r.1 ms
    (rs.1, r.2 ++ rs.2)

/-- The staging artifact names created in a trace. -/
def fileNames (outs : List Out) : List (List Char) :=
  outs.filterMap (fun o =>
    match o with
    | Out.fileWrite n _ => some n
    | _ => none)

def isPostOut : Out → Bool
  | Out.post _ => true
  | _ => false

/-- Initial bridge state: nothing sent, sclang not yet alive. -/
def initState : BridgeState := ⟨false, false, 0⟩

/-! ## The /help HTTP handler -/

def HELP_DIR_S : List Char := "/usr/local/share/SuperCollider/Help".data

/-- Split an absolute POSIX path on `/`. -/
def splitSlash (s : List Char) : List (List Char) :=
  s.splitOn '/'

/-- Resolve `.`/`..`/empty segments as `path.posix.resolve` does for an
absolute path (a `..` at the root is dropped). -/
def resolveSegs (segs : List (List Char)) : List (List Char) :=
  segs.foldl (fun acc seg =>
    if seg = [] then acc
    else if seg = ['.'] then acc
    else if seg = ['.', '.'] then acc.dropLast
    else acc ++ [seg]) []

def renderAbs (segs : List (List Char)) : List Char :=
  '/' :: List.intercalate ['/'] segs

/-- `path.resolve(base, rel)` for an absolute `base` and relative `rel`. -/
def pathResolveUnder (base rel : List Char) : List Char :=
  renderAbs (resolveSegs (splitSlash (base ++ '/' :: rel)))

inductive HResp where
  | notFound
  | forbidden
  | serve (p : List Char)
  deriving DecidableEq, Repr

/-- The resolved file path for a /help request: strip the `/help` mount,
probe the standard entry points for `/` via the filesystem oracle `exf`,
strip leading slashes and resolve against the help directory. -/
def helpResolved (exf : List Char → Bool) (url : List Char) : List Char :=
  let rel0 := url.drop 5
  let rel1 := if rel0 = [] then ['/'] else rel0
  let rel2 :=
    if rel1 = ['/'] then
      if exf (HELP_DIR_S ++ '/' :: "Help.html".data) then
        '/' :: "Help.html".data
      else if exf (HELP_DIR_S ++ '/' :: "index.html".data) then
        '/' :: "index.html".data
      else rel1
    else rel1
  pathResolveUnder HELP_DIR_S (rel2.dropWhile (fun c => c == '/'))

/-- The HTTP handler: 404 outside the `/help` mount, 403 when the resolved
path escapes the help directory, otherwise serve the resolved path. -/
def helpHandler (exf : List Char → Bool) (url : List Char) : HResp :=
  if ("/help".data).isPrefixOf url then
    if (HELP_DIR_S ++ ['/']).isPrefixOf (helpResolved exf url)
        ∨ helpResolved exf url = HELP_DIR_S then
      HResp.serve (helpResolved exf url)
    else HResp.forbidden
  else HResp.notFound

/-! ## Line-structured inputs for the sanitizer -/

/-- Concatenation of newline-terminated lines. -/
def joinNL (ls : List (List Char)) : List Char :=
  (ls.map (fun l => l ++ ['\n'])).flatten

/-- Classification of the newline-terminated lines the sanitizer's
line-removal specification quantifies over: an internal eval-load echo, a
startup-load echo, the stop-command echo, or an ordinary output line. -/
inductive BLine where
  | clean (l : List Char)
  | evalE (s : List Char)
  | startE (s : List Char)
  | stopE
  deriving DecidableEq, Repr

/-- The text of a line. -/
def BLine.render : BLine → List Char
  | BLine.clean l => l
  | BLine.evalE s => evalEchoPat ++ s ++ closePat
  | BLine.startE s => startupPatA ++ s ++ startupPatB ++ closePat
  | BLine.stopE => cmdPat

/-- No line terminators inside a line. -/
def noTermB (l : List Char) : Bool := l.all (fun c => !(isLineTerm c))

/-- Well-formedness: a clean line has no line terminators and does not
begin with the REPL prompt, a `load("` directive head, or the stop echo;
an echo line's path part is quote-free (so the `[^"]*` run stops at its
own closing quote); a startup echo additionally must not itself match the
eval-echo pattern (which would merely remove it one pass earlier). -/
def BLine.wfB : BLine → Bool
  | BLine.clean l => noTermB l && !(promptPat.isPrefixOf l)
      && !(startupPatA.isPrefixOf l) && !(cmdPat.isPrefixOf l)
  | BLine.evalE s => noTermB s && !(s.contains '"')
  | BLine.startE s => noTermB s && !(s.contains '"')
      && !(evalEchoPat.isPrefixOf (startupPatA ++ s ++ startupPatB ++ closePat))
  | BLine.stopE => true

/-- Lines the sanitizer keeps. -/
def BLine.keep : BLine → Bool
  | BLine.clean _ => true
  | _ => false

def BLine.isEvalE : BLine → Bool
  | BLine.evalE _ => true
  | _ => false

def BLine.isStartE : BLine → Bool
  | BLine.startE _ => true
  | _ => false

/-- Well-formedness of a broadcast trace with respect to the current
liveness flag: `status true` is emitted only while not alive (and flips the
flag), and an exit event is immediately followed by its notice post, a
`status false`, and the respawn timer; posts and stdin writes are neutral.
This is the shape invariant of every trace the supervisor can emit. -/
inductive TraceOK : Bool → List Out → Prop where
  | nil (a) : TraceOK a []
  | skipPost (a t rest) : TraceOK a rest → TraceOK a (Out.post t :: rest)
  | skipWrite (a t rest) : TraceOK a rest → TraceOK a (Out.stdinWrite t :: rest)
  | boot (rest) : TraceOK true rest → TraceOK false (Out.status true :: rest)
  | exitBlock (a t ms rest) : TraceOK false rest →
      TraceOK a (Out.exitEvt :: Out.post t :: Out.status false ::
        Out.spawnTimer ms :: rest)

/-! # Theorems -/

/-! ## Generic helper lemmas -/

theorem handleOutput_state (st : BridgeState) (raw : List Char) :
    (handleOutput st raw).1
      = ⟨st.startupSent || containsSub raw compileMarker,
         st.sclangAlive || containsSub raw bootMarker,
         st.evalCounter⟩ := by
  rcases st with ⟨su, al, k⟩
  cases su <;> cases hc : containsSub raw compileMarker <;>
    cases al <;> cases hb : containsSub raw bootMarker <;>
      simp [handleOutput, hc, hb]

theorem handleOutput_posts (st : BridgeState) (raw : List Char) :
    (handleOutput st raw).2.filter isPostOut
      = (if sanitize raw = [] then [] else [Out.post (sanitize raw)]) := by
  rcases st with ⟨su, al, k⟩
  by_cases ht : sanitize raw = [] <;>
    cases su <;> cases hc : containsSub raw compileMarker <;>
      cases al <;> cases hb : containsSub raw bootMarker <;>
        simp [handleOutput, hc, hb, ht, isPostOut]

theorem digitChar_toNat {d : Nat} (h : d < 10) : (digitChar d).toNat = 48 + d := by
  interval_cases d <;> rfl

theorem digitVal_append_digit (a : List Char) (c : Char) :
    digitVal (a ++ [c]) = digitVal a * 10 + (c.toNat - 48) := by
  simp [digitVal, List.foldl_append]

theorem natCharsAux_val : ∀ f n, n ≤ f → digitVal (natCharsAux f n) = n := by
  intro f
  induction f with
  | zero =>
    intro n h
    interval_cases n
    rfl
  | succ f ih =>
    intro n h
    match n with
    | 0 => rfl
    | Nat.succ m =>
      have hlt : (m + 1) / 10 < m + 1 := Nat.div_lt_self (Nat.succ_pos m) (by omega)
      have hf : (m + 1) / 10 ≤ f := by omega
      have hm : (m + 1) % 10 < 10 := Nat.mod_lt _ (by omega)
      calc digitVal (natCharsAux (f + 1) (m + 1))
          = digitVal (natCharsAux f ((m + 1) / 10) ++ [digitChar ((m + 1) % 10)]) := rfl
        _ = digitVal (natCharsAux f ((m + 1) / 10)) * 10
              + ((digitChar ((m + 1) % 10)).toNat - 48) := digitVal_append_digit _ _
        _ = ((m + 1) / 10) * 10 + (m + 1) % 10 := by
              rw [ih _ hf, digitChar_toNat hm]; omega
        _ = m + 1 := by omega

theorem natChars_val (n : Nat) : digitVal (natChars n) = n := by
  by_cases h : n = 0
  · subst h; rfl
  · simp only [natChars, h, if_false]
    exact natCharsAux_val n n le_rfl

theorem natChars_inj {a b : Nat} (h : natChars a = natChars b) : a = b := by
  have hv := congrArg digitVal h
  rwa [natChars_val, natChars_val] at hv

theorem natCharsAux_digits :
    ∀ f n c, c ∈ natCharsAux f n → ∃ d, d < 10 ∧ c = digitChar d := by
  intro f
  induction f with
  | zero => intro n c hc; simp [natCharsAux] at hc
  | succ f ih =>
    intro n c hc
    match n with
    | 0 => simp [natCharsAux] at hc
    | Nat.succ m =>
      rw [show natCharsAux (f + 1) (m + 1)
            = natCharsAux f ((m + 1) / 10) ++ [digitChar ((m + 1) % 10)] from rfl] at hc
      rcases List.mem_append.mp hc with hc | hc
      · exact ih _ _ hc
      · exact ⟨(m + 1) % 10, Nat.mod_lt _ (by omega), List.mem_singleton.mp hc⟩

theorem natChars_digits {n : Nat} {c : Char} (hc : c ∈ natChars n) :
    ∃ d, d < 10 ∧ c = digitChar d := by
  by_cases h : n = 0
  · subst h
    simp [natChars] at hc
    exact ⟨0, by omega, by rw [hc]; rfl⟩
  · simp only [natChars, h, if_false] at hc
    exact natCharsAux_digits n n c hc

theorem jsonEscapeChar_eq_self {c : Char} (h1 : ¬ c = '"') (h2 : ¬ c = '\\')
    (h3 : 32 ≤ c.toNat) : jsonEscapeChar c = [c] := by
  have hn : ¬ c = '\n' := by rintro rfl; exact absurd h3 (by decide)
  have hr : ¬ c = '\r' := by rintro rfl; exact absurd h3 (by decide)
  have ht : ¬ c = '\t' := by rintro rfl; exact absurd h3 (by decide)
  have hb : ¬ c = '\u0008' := by rintro rfl; exact absurd h3 (by decide)
  have hf : ¬ c = '\u000C' := by rintro rfl; exact absurd h3 (by decide)
  have hlt : ¬ c.toNat < 32 := by omega
  simp [jsonEscapeChar, h1, h2, hn, hr, ht, hb, hf, hlt]

theorem jsonEscapeChar_digit {d : Nat} (h : d < 10) :
    jsonEscapeChar (digitChar d) = [digitChar d] := by
  interval_cases d <;> rfl

theorem flatten_map_single {α : Type} (s : List α) :
    (s.map (fun c => [c])).flatten = s := by
  induction s <;> simp [*]

theorem jsonStr_plain {s : List Char} (h : ∀ c ∈ s, jsonEscapeChar c = [c]) :
    jsonStr s = '"' :: (s ++ ['"']) := by
  unfold jsonStr
  rw [List.map_congr_left h, flatten_map_single]
  simp

theorem evalFileName_plain (now ctr : Nat) :
    ∀ c ∈ evalFileName now ctr, jsonEscapeChar c = [c] := by
  intro c hc
  unfold evalFileName at hc
  rcases List.mem_append.mp hc with hc | hc
  · rcases List.mem_append.mp hc with hc | hc
    · rcases List.mem_append.mp hc with hc | hc
      · exact (by decide : ∀ x ∈ "/tmp/sc_eval_".data, jsonEscapeChar x = [x]) c hc
      · rcases natChars_digits hc with ⟨d, hd, rfl⟩
        exact jsonEscapeChar_digit hd
    · rcases List.mem_cons.mp hc with rfl | hc
      · rfl
      · rcases natChars_digits hc with ⟨d, hd, rfl⟩
        exact jsonEscapeChar_digit hd
  · exact (by decide : ∀ x ∈ ".scd".data, jsonEscapeChar x = [x]) c hc

theorem loadCmd_plainName (now ctr : Nat) :
    loadCmd (evalFileName now ctr)
      = "load(\"".data ++ (evalFileName now ctr ++ "\");\n".data) := by
  unfold loadCmd
  rw [jsonStr_plain (evalFileName_plain now ctr)]
  rw [show "load(\"".data = "load(".data ++ ['"'] from by decide]
  rw [show "\");\n".data = '"' :: ");\n".data from by decide]
  simp [List.append_assoc]

/-! ## Claim C1 -/

/-- Claim C1 is refuted as stated: for the code string "1 + 1;\n" (a
trailing newline) the staging artifact contains the trimmed code, not the
code itself, wrapped in the block delimiter: the contents are
"(\n1 + 1;\n)\n", not "(\n1 + 1;\n\n)\n". -/
theorem c1_counterexample :
    (handleMessage ⟨true, true, 0⟩ 7 (CMsg.eval ("1 + 1;\n".data))).2
      = [Out.fileWrite ("/tmp/sc_eval_7_0.scd".data) ("(\n1 + 1;\n)\n".data),
         Out.stdinWrite ("load(\"/tmp/sc_eval_7_0.scd\");\n".data),
         Out.unlinkTimer 15000 ("/tmp/sc_eval_7_0.scd".data)]
    ∧ ("(\n1 + 1;\n)\n".data)
        ≠ "(\n".data ++ ("1 + 1;\n".data ++ "\n)\n".data) := by
  decide

/-- Claim C1 (amended): for every code string C accepted while sclang is
alive, exactly one staging artifact is created whose contents are C with
trailing whitespace removed, wrapped in the block delimiter
"(\n"…"\n)\n", exactly one load directive naming that artifact by absolute
path is written to the child's stdin, and exactly one deletion of the
artifact is scheduled at the fixed 15-second TTL. -/
theorem c1_amended (st : BridgeState) (now : Nat) (code : List Char)
    (h : st.sclangAlive = true) :
    handleMessage st now (CMsg.eval code)
      = ({ st with evalCounter := st.evalCounter + 1 },
         [Out.fileWrite (evalFileName now st.evalCounter)
            ("(\n".data ++ (jsTrimEnd code ++ "\n)\n".data)),
          Out.stdinWrite
            ("load(\"".data ++ (evalFileName now st.evalCounter ++ "\");\n".data)),
          Out.unlinkTimer 15000 (evalFileName now st.evalCounter)]) := by
  have hne : ¬ st.sclangAlive = false := by simp [h]
  simp [handleMessage, hne, evalCode, wrapCode, EVAL_TTL_MS, loadCmd_plainName,
    List.append_assoc]

/-- Witness for C1 (amended) at a concrete state and code string. -/
theorem c1_witness :
    handleMessage ⟨true, true, 0⟩ 7 (CMsg.eval ("1 + 1;".data))
      = (⟨true, true, 1⟩,
         [Out.fileWrite ("/tmp/sc_eval_7_0.scd".data) ("(\n1 + 1;\n)\n".data),
          Out.stdinWrite ("load(\"/tmp/sc_eval_7_0.scd\");\n".data),
          Out.unlinkTimer 15000 ("/tmp/sc_eval_7_0.scd".data)]) := by
  rw [c1_amended ⟨true, true, 0⟩ 7 ("1 + 1;".data) rfl]
  decide

/-! ## Claim C8 -/

theorem underscore_split : ∀ (a a' b b' : List Char),
    '_' ∉ a → '_' ∉ a' → a ++ '_' :: b = a' ++ '_' :: b' → a = a' ∧ b = b' := by
  intro a
  induction a with
  | nil =>
    intro a' b b' _ h2 heq
    cases a' with
    | nil =>
      simp only [List.nil_append, List.cons.injEq] at heq
      exact ⟨rfl, heq.2⟩
    | cons y t =>
      simp only [List.nil_append, List.cons_append, List.cons.injEq] at heq
      exact absurd (heq.1 ▸ List.mem_cons_self y t) h2
  | cons x t ih =>
    intro a' b b' h1 h2 heq
    cases a' with
    | nil =>
      simp only [List.cons_append, List.nil_append, List.cons.injEq] at heq
      exact absurd (heq.1 ▸ List.mem_cons_self x t) h1
    | cons y t' =>
      simp only [List.cons_append, List.cons.injEq] at heq
      rcases heq with ⟨hxy, heq⟩
      rcases ih t' b b' (fun hm => h1 (List.mem_cons_of_mem x hm))
        (fun hm => h2 (List.mem_cons_of_mem y hm)) heq with ⟨hA, hB⟩
      exact ⟨by rw [hxy, hA], hB⟩

theorem natChars_no_us {n : Nat} : '_' ∉ natChars n := by
  intro hc
  rcases natChars_digits hc with ⟨d, hd, hcd⟩
  have hv := congrArg Char.toNat hcd
  rw [digitChar_toNat hd] at hv
  have h95 : ('_').toNat = 95 := rfl
  omega

theorem evalFileName_inj_ctr {t c t' c' : Nat}
    (h : evalFileName t c = evalFileName t' c') : c = c' := by
  unfold evalFileName at h
  simp only [List.append_assoc] at h
  have h1 := List.append_cancel_left h
  rcases underscore_split (natChars t) (natChars t')
    (natChars c ++ ".scd".data) (natChars c' ++ ".scd".data)
    natChars_no_us natChars_no_us h1 with ⟨_, h2⟩
  exact natChars_inj (List.append_cancel_right h2)

theorem fileNames_append (a b : List Out) :
    fileNames (a ++ b) = fileNames a ++ fileNames b := by
  simp [fileNames, List.filterMap_append]

theorem handleMessage_names (st : BridgeState) (now : Nat) (m : CMsg) :
    st.evalCounter ≤ (handleMessage st now m).1.evalCounter
    ∧ ∀ n ∈ fileNames (handleMessage st now m).2,
        ∃ t c, n = evalFileName t c ∧ st.evalCounter ≤ c
          ∧ c < (handleMessage st now m).1.evalCounter := by
  match m with
  | CMsg.eval code =>
    by_cases h : st.sclangAlive = false
    · simp [handleMessage, h, fileNames]
    · constructor
      · simp [handleMessage, h, evalCode]
      · intro n hn
        simp [handleMessage, h, evalCode, fileNames] at hn ⊢
        exact ⟨now, st.evalCounter, hn, le_rfl, Nat.lt_succ_self _⟩
  | CMsg.stop =>
    cases h : st.sclangAlive <;> simp [handleMessage, h, fileNames]
  | CMsg.malformed => simp [handleMessage, fileNames]

theorem runMsgs_cons (st : BridgeState) (now : Nat) (m : CMsg)
    (ms : List (Nat × CMsg)) :
    runMsgs st ((now, m) :: ms)
      = ((runMsgs (handleMessage st now m).1 ms).1,
         (handleMessage st now m).2 ++ (runMsgs (handleMessage st now m).1 ms).2) := by
  simp [runMsgs]

theorem runMsgs_names (ms : List (Nat × CMsg)) : ∀ st : BridgeState,
    st.evalCounter ≤ (runMsgs st ms).1.evalCounter
    ∧ ∀ n ∈ fileNames (runMsgs st ms).2,
        ∃ t c, n = evalFileName t c ∧ st.evalCounter ≤ c
          ∧ c < (runMsgs st ms).1.evalCounter := by
  induction ms with
  | nil =>
    intro st
    refine ⟨le_rfl, ?_⟩
    intro n hn
    simp [runMsgs, fileNames] at hn
  | cons p ms ih =>
    intro st
    rcases p with ⟨now, m⟩
    have hstep := handleMessage_names st now m
    have htail := ih (handleMessage st now m).1
    rw [runMsgs_cons]
    refine ⟨le_trans hstep.1 htail.1, ?_⟩
    intro n hn
    rw [fileNames_append] at hn
    rcases List.mem_append.mp hn with hn | hn
    · rcases hstep.2 n hn with ⟨t, c, h1, h2, h3⟩
      exact ⟨t, c, h1, h2, lt_of_lt_of_le h3 htail.1⟩
    · rcases htail.2 n hn with ⟨t, c, h1, h2, h3⟩
      exact ⟨t, c, h1, le_trans hstep.1 h2, h3⟩

theorem handleMessage_names_pairwise (st : BridgeState) (now : Nat) (m : CMsg) :
    (fileNames (handleMessage st now m).2).Pairwise (fun a b => a ≠ b) := by
  match m with
  | CMsg.eval code =>
    by_cases h : st.sclangAlive = false <;>
      simp [handleMessage, h, evalCode, fileNames]
  | CMsg.stop =>
    cases h : st.sclangAlive <;> simp [handleMessage, h, fileNames]
  | CMsg.malformed => simp [handleMessage, fileNames]

/-- Claim C8: all staging artifact names generated over any run of client
messages are pairwise distinct; the name embeds the strictly increasing
eval counter, so even two requests carrying the same millisecond timestamp
get distinct names. -/
theorem c8_confirmed (st : BridgeState) (ms : List (Nat × CMsg)) :
    (fileNames (runMsgs st ms).2).Pairwise (fun a b => a ≠ b) := by
  induction ms generalizing st with
  | nil => simp [runMsgs, fileNames]
  | cons p ms ih =>
    rcases p with ⟨now, m⟩
    rw [runMsgs_cons, fileNames_append, List.pairwise_append]
    refine ⟨handleMessage_names_pairwise st now m, ih _, ?_⟩
    intro a ha b hb
    rcases (handleMessage_names st now m).2 a ha with ⟨t1, c1, h1, _, h13⟩
    rcases (runMsgs_names ms (handleMessage st now m).1).2 b hb
      with ⟨t2, c2, h2, h22, _⟩
    rw [h1, h2]
    intro heq
    have := evalFileName_inj_ctr heq
    omega

/-! ## Claim C5 -/

/-- Claim C5: an `eval` request arriving while sclang is not alive is
rejected: the requesting client alone receives a "not ready" post, nothing
is broadcast, no staging artifact is created, nothing is written to the
child's stdin, and the state is unchanged. -/
theorem c5_confirmed (st : BridgeState) (now : Nat) (code : List Char)
    (h : st.sclangAlive = false) :
    handleMessage st now (CMsg.eval code) = (st, [Out.sendPost notReadyText]) := by
  simp [handleMessage, h]

/-- Witness for C5 at a concrete state and code string. -/
theorem c5_witness :
    handleMessage ⟨false, false, 0⟩ 42 (CMsg.eval ("1 + 1;".data))
      = (⟨false, false, 0⟩, [Out.sendPost notReadyText]) :=
  c5_confirmed ⟨false, false, 0⟩ 42 ("1 + 1;".data) (by decide)

/-! ## Claim C6 -/

/-- Claim C6: a `stop` message writes exactly the fixed interrupt directive
to the child's stdin when sclang is alive (no staging artifact, no reply,
no broadcast); when sclang is not alive it is silently ignored: no write,
no reply, no broadcast, no queueing, state unchanged. -/
theorem c6_confirmed (st : BridgeState) (now : Nat) :
    handleMessage st now CMsg.stop
      = (st, if st.sclangAlive then [Out.stdinWrite stopCmdText] else []) := by
  cases h : st.sclangAlive <;> simp [handleMessage, h]

/-! ## Claim C7 -/

/-- Claim C7: on every new connection the client is registered and receives
exactly one message, a status message equal to the supervisor state at
connection time; no prior post history is replayed. -/
theorem c7_confirmed (clients : List Nat) (newClient : Nat) (st : BridgeState) :
    (handleConnection clients newClient st).2 = [Out.sendStatus st.sclangAlive]
    ∧ (handleConnection clients newClient st).1 = clients ++ [newClient] := by
  exact ⟨rfl, rfl⟩

/-! ## Claim C9 -/

/-- Claim C9 is refuted as stated: the chunk "sc3> " sanitizes to the empty
string, and the bridge then broadcasts no `post` message at all for that
chunk (the source guards the broadcast with `if (text)`). -/
theorem c9_counterexample :
    (handleOutput ⟨true, true, 0⟩ ("sc3> ".data)).2 = []
    ∧ sanitize ("sc3> ".data) = [] := by
  decide

/-- Claim C9 (amended): every chunk is scanned for both lifecycle markers
(the flags are sticky disjunctions over per-chunk containment), and the
chunk's sanitized text is broadcast as exactly one `post` message iff the
sanitized text is nonempty; marker scanning happens regardless of the
broadcast. -/
theorem c9_amended (st : BridgeState) (raw : List Char) :
    ((handleOutput st raw).1.startupSent
        = (st.startupSent || containsSub raw compileMarker)
      ∧ (handleOutput st raw).1.sclangAlive
        = (st.sclangAlive || containsSub raw bootMarker))
    ∧ (handleOutput st raw).2.filter isPostOut
        = (if sanitize raw = [] then [] else [Out.post (sanitize raw)]) := by
  refine ⟨⟨?_, ?_⟩, handleOutput_posts st raw⟩ <;>
    rw [handleOutput_state]

/-! ## Claim C2 -/

/-- Claim C2 is refuted as stated: the boot marker split across two chunks
is not detected (sclangAlive stays false), while the same bytes in a single
chunk are detected — detection is not invariant under re-chunking. -/
theorem c2_counterexample :
    (runChunks ⟨true, false, 0⟩
        ["=== SuperCollider ser".data, "ver booted ===".data]).1.sclangAlive = false
    ∧ (runChunks ⟨true, false, 0⟩
        [("=== SuperCollider ser".data ++ "ver booted ===".data)]).1.sclangAlive = true := by
  decide

/-- Claim C2 (amended): marker detection scans each chunk independently
with a substring test; over any chunk sequence a lifecycle flag is set iff
it was already set or the corresponding marker is wholly contained in some
single chunk.  A marker split across adjacent chunk boundaries is missed:
there is no buffering of residual text across chunks. -/
theorem c2_amended (st : BridgeState) (cs : List (List Char)) :
    (runChunks st cs).1.startupSent
      = (st.startupSent || cs.any (fun c => containsSub c compileMarker))
    ∧ (runChunks st cs).1.sclangAlive
      = (st.sclangAlive || cs.any (fun c => containsSub c bootMarker)) := by
  induction cs generalizing st with
  | nil => simp [runChunks, runE]
  | cons c cs ih =>
    have hstep := handleOutput_state st c
    have htail := ih (handleOutput st c).1
    constructor
    · have : (runChunks st (c :: cs)).1 = (runChunks (handleOutput st c).1 cs).1 := by
        simp [runChunks, runE, stepE]
      rw [this, htail.1, hstep]
      simp [Bool.or_assoc]
    · have : (runChunks st (c :: cs)).1 = (runChunks (handleOutput st c).1 cs).1 := by
        simp [runChunks, runE, stepE]
      rw [this, htail.2, hstep]
      simp [Bool.or_assoc]

/-! ## Claim C4 -/

theorem traceOK_handleOutput (st : BridgeState) (raw : List Char)
    (rest : List Out) (h : TraceOK (handleOutput st raw).1.sclangAlive rest) :
    TraceOK st.sclangAlive ((handleOutput st raw).2 ++ rest) := by
  rcases st with ⟨su, al, k⟩
  by_cases ht : sanitize raw = [] <;>
    cases su <;> cases hc : containsSub raw compileMarker <;>
      cases al <;> cases hb : containsSub raw bootMarker <;>
        simp only [handleOutput, hc, hb, ht] at h ⊢ <;>
          simp at h ⊢ <;>
            repeat first
              | exact h
              | exact TraceOK.skipPost _ _ _ h
              | exact TraceOK.skipWrite _ _ _ h
              | apply TraceOK.skipPost
              | apply TraceOK.skipWrite
              | apply TraceOK.boot

theorem traceOK_run (evs : List BEvent) : ∀ st : BridgeState,
    TraceOK st.sclangAlive (runE st evs).2 := by
  induction evs with
  | nil => intro st; exact TraceOK.nil _
  | cons e es ih =>
    intro st
    have hrun : (runE st (e :: es)).2
        = (stepE st e).2 ++ (runE (stepE st e).1 es).2 := by
      simp [runE]
    rw [hrun]
    match e with
    | BEvent.chunk raw => exact traceOK_handleOutput st raw _ (ih _)
    | BEvent.exited code sig =>
      have htail := ih (stepE st (BEvent.exited code sig)).1
      have hsh : (stepE st (BEvent.exited code sig)).2
          ++ (runE (stepE st (BEvent.exited code sig)).1 es).2
          = Out.exitEvt :: Out.post (exitMsgText code sig) :: Out.status false ::
            Out.spawnTimer 3000
              :: (runE (stepE st (BEvent.exited code sig)).1 es).2 := by
        simp [stepE, handleExit]
      rw [hsh]
      exact TraceOK.exitBlock _ _ _ _ htail
    | BEvent.respawn =>
      have htail := ih (stepE st BEvent.respawn).1
      have hsh : (stepE st BEvent.respawn).2
          ++ (runE (stepE st BEvent.respawn).1 es).2
          = (runE (stepE st BEvent.respawn).1 es).2 := by
        simp [stepE]
      rw [hsh]
      exact htail

theorem traceOK_exit_false {a : Bool} {tr : List Out} (h : TraceOK a tr) :
    ∀ pre post, tr = pre ++ Out.exitEvt :: post →
      ∃ p1 p2, post = p1 ++ Out.status false :: p2 ∧ Out.status true ∉ p1 := by
  induction h with
  | nil a =>
    intro pre post heq
    rcases List.append_eq_nil.mp heq.symm with ⟨_, h2⟩
    simp at h2
  | skipPost a t rest hr ih =>
    intro pre post heq
    cases pre with
    | nil => simp at heq
    | cons x pre' =>
      simp only [List.cons_append, List.cons.injEq] at heq
      exact ih pre' post heq.2
  | skipWrite a t rest hr ih =>
    intro pre post heq
    cases pre with
    | nil => simp at heq
    | cons x pre' =>
      simp only [List.cons_append, List.cons.injEq] at heq
      exact ih pre' post heq.2
  | boot rest hr ih =>
    intro pre post heq
    cases pre with
    | nil => simp at heq
    | cons x pre' =>
      simp only [List.cons_append, List.cons.injEq] at heq
      exact ih pre' post heq.2
  | exitBlock a t ms rest hr ih =>
    intro pre post heq
    cases pre with
    | nil =>
      simp only [List.nil_append, List.cons.injEq] at heq
      refine ⟨[Out.post t], Out.spawnTimer ms :: rest, ?_, by simp⟩
      rw [← heq.2]
      simp
    | cons x pre' =>
      simp only [List.cons_append, List.cons.injEq] at heq
      rcases heq with ⟨_, heq⟩
      cases pre' with
      | nil => simp at heq
      | cons y pre'' =>
        simp only [List.cons_append, List.cons.injEq] at heq
        rcases heq with ⟨_, heq⟩
        cases pre'' with
        | nil => simp at heq
        | cons z pre3 =>
          simp only [List.cons_append, List.cons.injEq] at heq
          rcases heq with ⟨_, heq⟩
          cases pre3 with
          | nil => simp at heq
          | cons w pre4 =>
            simp only [List.cons_append, List.cons.injEq] at heq
            exact ih pre4 post heq.2

theorem traceOK_noBoot {a : Bool} {tr : List Out} (h : TraceOK a tr) :
    ∀ mid post, a = true → tr = mid ++ Out.status true :: post →
      Out.exitEvt ∈ mid := by
  induction h with
  | nil a =>
    intro mid post _ heq
    rcases List.append_eq_nil.mp heq.symm with ⟨_, h2⟩
    simp at h2
  | skipPost a t rest hr ih =>
    intro mid post ha heq
    cases mid with
    | nil => simp at heq
    | cons x mid' =>
      simp only [List.cons_append, List.cons.injEq] at heq
      exact List.mem_cons_of_mem x (ih mid' post ha heq.2)
  | skipWrite a t rest hr ih =>
    intro mid post ha heq
    cases mid with
    | nil => simp at heq
    | cons x mid' =>
      simp only [List.cons_append, List.cons.injEq] at heq
      exact List.mem_cons_of_mem x (ih mid' post ha heq.2)
  | boot rest hr ih =>
    intro mid post ha heq
    exact absurd ha (by simp)
  | exitBlock a t ms rest hr ih =>
    intro mid post ha heq
    cases mid with
    | nil => simp at heq
    | cons x mid' =>
      simp only [List.cons_append, List.cons.injEq] at heq
      rw [heq.1]
      exact List.mem_cons_self _ _

theorem traceOK_twoBoots {a : Bool} {tr : List Out} (h : TraceOK a tr) :
    ∀ pre mid post,
      tr = pre ++ Out.status true :: (mid ++ Out.status true :: post) →
      Out.exitEvt ∈ mid := by
  induction h with
  | nil a =>
    intro pre mid post heq
    rcases List.append_eq_nil.mp heq.symm with ⟨_, h2⟩
    simp at h2
  | skipPost a t rest hr ih =>
    intro pre mid post heq
    cases pre with
    | nil => simp at heq
    | cons x pre' =>
      simp only [List.cons_append, List.cons.injEq] at heq
      exact ih pre' mid post heq.2
  | skipWrite a t rest hr ih =>
    intro pre mid post heq
    cases pre with
    | nil => simp at heq
    | cons x pre' =>
      simp only [List.cons_append, List.cons.injEq] at heq
      exact ih pre' mid post heq.2
  | boot rest hr ih =>
    intro pre mid post heq
    cases pre with
    | nil =>
      simp only [List.nil_append, List.cons.injEq] at heq
      exact traceOK_noBoot hr mid post rfl heq.2
    | cons x pre' =>
      simp only [List.cons_append, List.cons.injEq] at heq
      exact ih pre' mid post heq.2
  | exitBlock a t ms rest hr ih =>
    intro pre mid post heq
    cases pre with
    | nil => simp at heq
    | cons x pre' =>
      simp only [List.cons_append, List.cons.injEq] at heq
      rcases heq with ⟨_, heq⟩
      cases pre' with
      | nil => simp at heq
      | cons y pre'' =>
        simp only [List.cons_append, List.cons.injEq] at heq
        rcases heq with ⟨_, heq⟩
        cases pre'' with
        | nil => simp at heq
        | cons z pre3 =>
          simp only [List.cons_append, List.cons.injEq] at heq
          rcases heq with ⟨_, heq⟩
          cases pre3 with
          | nil => simp at heq
          | cons w pre4 =>
            simp only [List.cons_append, List.cons.injEq] at heq
            exact ih pre4 mid post heq.2

/-- Claim C4: over every sequence of child events starting from the
initial state, (i) after an exit event a `status false` broadcast occurs
before any subsequent `status true` broadcast, and (ii) between any two
`status true` broadcasts there is an exit event — so each boot cycle emits
exactly one `status true`, even if the boot marker reappears. -/
theorem c4_confirmed (evs : List BEvent) :
    (∀ pre post,
        (runE initState evs).2 = pre ++ Out.exitEvt :: post →
        Out.status true ∈ post →
        ∃ p1 p2, post = p1 ++ Out.status false :: p2 ∧ Out.status true ∉ p1)
    ∧ (∀ pre mid post,
        (runE initState evs).2
          = pre ++ Out.status true :: (mid ++ Out.status true :: post) →
        Out.exitEvt ∈ mid) := by
  have h := traceOK_run evs initState
  exact ⟨fun pre post heq _ => traceOK_exit_false h pre post heq,
         fun pre mid post heq => traceOK_twoBoots h pre mid post heq⟩

/-- Witness for C4 at a concrete boot–crash–reboot event sequence. -/
theorem c4_witness :
    ∃ p1 p2,
      [Out.post (exitMsgText "0".data "null".data), Out.status false,
       Out.spawnTimer 3000, Out.status true, Out.post bootMarker]
        = p1 ++ Out.status false :: p2 ∧ Out.status true ∉ p1 :=
  (c4_confirmed
      [BEvent.chunk bootMarker, BEvent.exited "0".data "null".data,
       BEvent.respawn, BEvent.chunk bootMarker]).1
    [Out.status true, Out.post bootMarker]
    [Out.post (exitMsgText "0".data "null".data), Out.status false,
     Out.spawnTimer 3000, Out.status true, Out.post bootMarker]
    (by decide) (by decide)

/-! ## Claim C10 -/

/-- Claim C10: requests outside the `/help` mount get 404; a request whose
resolved path falls outside the help directory gets 403 and no file is
read; every path actually served lies inside the help directory (it is
HELP_DIR itself or has `HELP_DIR/` as a prefix), so no request can cause a
file outside HELP_DIR to be served. -/
theorem c10_confirmed (exf : List Char → Bool) (url : List Char) :
    (("/help".data).isPrefixOf url = false →
      helpHandler exf url = HResp.notFound)
    ∧ (("/help".data).isPrefixOf url = true →
        ((HELP_DIR_S ++ ['/']).isPrefixOf (helpResolved exf url) = false
          ∧ helpResolved exf url ≠ HELP_DIR_S) →
        helpHandler exf url = HResp.forbidden)
    ∧ (∀ p, helpHandler exf url = HResp.serve p →
        ((HELP_DIR_S ++ ['/']).isPrefixOf p = true ∨ p = HELP_DIR_S)) := by
  refine ⟨?_, ?_, ?_⟩
  · intro h
    simp [helpHandler, h]
  · intro h hg
    simp [helpHandler, h, hg.1, hg.2]
  · intro p hp
    by_cases h : ("/help".data).isPrefixOf url = true
    · by_cases hg : ((HELP_DIR_S ++ ['/']).isPrefixOf (helpResolved exf url) = true
          ∨ helpResolved exf url = HELP_DIR_S)
      · rw [helpHandler, if_pos h, if_pos hg] at hp
        injection hp with hp
        rw [← hp]
        exact hg
      · rw [helpHandler, if_pos h, if_neg hg] at hp
        exact absurd hp (by simp)
    · rw [helpHandler, if_neg h] at hp
      exact absurd hp (by simp)

/-- Witness for C10: a request outside the help mount gets 404 and a
directory-traversal request gets 403. -/
theorem c10_witness :
    helpHandler (fun _ => false) ("/x".data) = HResp.notFound
    ∧ helpHandler (fun _ => false) ("/help/../../../etc/passwd".data)
        = HResp.forbidden :=
  ⟨(c10_confirmed (fun _ => false) ("/x".data)).1 (by decide),
   (c10_confirmed (fun _ => false) ("/help/../../../etc/passwd".data)).2.1
     (by decide) (by decide)⟩

/-! ## Claim C3: scanner machinery -/

theorem runPassF_nil (m : List Char → Nat) : ∀ f b, runPassF m f b [] = [] := by
  intro f b
  cases f <;> rfl

theorem runPassF_congr (m : List Char → Nat) :
    ∀ f g b (s : List Char), s.length ≤ f → s.length ≤ g →
      runPassF m f b s = runPassF m g b s := by
  intro f
  induction f with
  | zero =>
    intro g b s hf hg
    have hs : s = [] := List.eq_nil_of_length_eq_zero (Nat.le_zero.mp hf)
    subst hs
    rw [runPassF_nil, runPassF_nil]
  | succ f ih =>
    intro g b s hf hg
    cases s with
    | nil => rw [runPassF_nil, runPassF_nil]
    | cons c cs =>
      cases g with
      | zero => simp at hg
      | succ g =>
        simp only [runPassF]
        by_cases hcond : b = true ∧ 0 < m (c :: cs)
        · simp only [if_pos hcond]
          have hk := hcond.2
          apply ih
          · rw [List.length_drop]
            simp only [List.length_cons] at hf ⊢
            omega
          · rw [List.length_drop]
            simp only [List.length_cons] at hg ⊢
            omega
        · simp only [if_neg hcond]
          simp only [List.length_cons] at hf hg
          rw [ih g (isLineTerm c) cs (by omega) (by omega)]

theorem runPass_skip_cons (m : List Char → Nat) (b : Bool) (c : Char)
    (cs : List Char) (h : ¬ (b = true ∧ 0 < m (c :: cs))) :
    runPass m b (c :: cs) = c :: runPass m (isLineTerm c) cs := by
  unfold runPass
  simp only [List.length_cons, runPassF]
  rw [if_neg h]

theorem runPass_match_cons (m : List Char → Nat) (s : List Char)
    (hne : s ≠ []) (hk : 0 < m s) :
    runPass m true s = runPass m (lastIsTerm s (m s)) (s.drop (m s)) := by
  cases s with
  | nil => exact absurd rfl hne
  | cons c cs =>
    unfold runPass
    simp only [List.length_cons, runPassF]
    rw [if_pos ⟨trivial, hk⟩]
    apply runPassF_congr
    · rw [List.length_drop]
      simp only [List.length_cons]
      omega
    · exact le_rfl

theorem runPass_mid (m : List Char → Nat) :
    ∀ (l rest : List Char), (∀ c ∈ l, isLineTerm c = false) →
      runPass m false (l ++ '\n' :: rest) = l ++ '\n' :: runPass m true rest := by
  intro l
  induction l with
  | nil =>
    intro rest _
    rw [List.nil_append, runPass_skip_cons m false '\n' rest (by simp)]
    rw [show isLineTerm '\n' = true from rfl]
    rfl
  | cons c l ih =>
    intro rest hl
    have hc : isLineTerm c = false := hl c (List.mem_cons_self c l)
    rw [List.cons_append, runPass_skip_cons m false c _ (by simp), hc]
    rw [ih rest (fun x hx => hl x (List.mem_cons_of_mem _ hx))]
    rfl

theorem runPass_skipLine (m : List Char → Nat) (l rest : List Char)
    (hl : ∀ c ∈ l, isLineTerm c = false)
    (hm : m (l ++ '\n' :: rest) = 0) :
    runPass m true (l ++ '\n' :: rest) = l ++ '\n' :: runPass m true rest := by
  cases l with
  | nil =>
    have hm' : m ('\n' :: rest) = 0 := by simpa using hm
    rw [List.nil_append, runPass_skip_cons m true '\n' rest (by simp [hm'])]
    rw [show isLineTerm '\n' = true from rfl]
    rfl
  | cons c l' =>
    have hm' : m (c :: (l' ++ '\n' :: rest)) = 0 := by simpa using hm
    have hc : isLineTerm c = false := hl c (List.mem_cons_self c l')
    rw [List.cons_append, runPass_skip_cons m true c _ (by simp [hm']), hc]
    rw [runPass_mid m l' rest (fun x hx => hl x (List.mem_cons_of_mem _ hx))]
    rfl

theorem runPass_removeLine (m : List Char → Nat) (l rest : List Char)
    (hm : m (l ++ '\n' :: rest) = l.length + 1) :
    runPass m true (l ++ '\n' :: rest) = runPass m true rest := by
  have hne : l ++ '\n' :: rest ≠ [] := by simp
  have hk : 0 < m (l ++ '\n' :: rest) := by rw [hm]; omega
  rw [runPass_match_cons m _ hne hk, hm]
  have hsplit : l ++ '\n' :: rest = (l ++ ['\n']) ++ rest := by simp
  have hlen : l.length + 1 = (l ++ ['\n']).length := by simp
  have hdrop : (l ++ '\n' :: rest).drop (l.length + 1) = rest := by
    rw [hsplit, hlen]
    exact List.drop_left _ _
  have hlast : lastIsTerm (l ++ '\n' :: rest) (l.length + 1) = true := by
    unfold lastIsTerm
    rw [hsplit, hlen, List.take_left, List.getLast?_concat]
    rfl
  rw [hdrop, hlast]

theorem joinNL_cons (l : List Char) (ls : List (List Char)) :
    joinNL (l :: ls) = l ++ '\n' :: joinNL ls := by
  simp [joinNL]

theorem runPass_join {α : Type} (m : List Char → Nat) (ren : α → List Char)
    (kf : α → Bool) :
    ∀ ls : List α,
      (∀ x ∈ ls, ∀ c ∈ ren x, isLineTerm c = false) →
      (∀ x ∈ ls, ∀ r, (kf x = true → m (ren x ++ '\n' :: r) = 0)
        ∧ (kf x = false → m (ren x ++ '\n' :: r) = (ren x).length + 1)) →
      runPass m true (joinNL (ls.map ren)) = joinNL ((ls.filter kf).map ren) := by
  intro ls
  induction ls with
  | nil => intro _ _; rfl
  | cons x ls ih =>
    intro hterm hm
    rw [show (x :: ls).map ren = ren x :: ls.map ren from rfl, joinNL_cons]
    have hrec := ih (fun y hy => hterm y (List.mem_cons_of_mem _ hy))
      (fun y hy => hm y (List.mem_cons_of_mem _ hy))
    cases hkf : kf x with
    | true =>
      rw [runPass_skipLine m _ _ (hterm x (List.mem_cons_self _ _))
        ((hm x (List.mem_cons_self _ _) _).1 hkf)]
      rw [hrec]
      rw [show (x :: ls).filter kf = x :: ls.filter kf from by
        simp [List.filter_cons, hkf]]
      rw [show (x :: ls.filter kf).map ren = ren x :: (ls.filter kf).map ren from rfl]
      rw [joinNL_cons]
    | false =>
      rw [runPass_removeLine m _ _ ((hm x (List.mem_cons_self _ _) _).2 hkf)]
      rw [hrec]
      rw [show (x :: ls).filter kf = ls.filter kf from by
        simp [List.filter_cons, hkf]]

/-! ## Claim C3: matcher behaviour on the line classes -/

theorem isPrefixOf_append_cons {P : List Char} {t : Char} (ht : t ∉ P) :
    ∀ {l : List Char} (r : List Char),
      P.isPrefixOf (l ++ t :: r) = P.isPrefixOf l := by
  induction P with
  | nil => intro l r; simp [List.isPrefixOf]
  | cons p P ih =>
    intro l r
    cases l with
    | nil =>
      simp only [List.nil_append, List.isPrefixOf_cons_nil]
      rw [List.isPrefixOf_cons₂]
      have hpt : (p == t) = false := by
        apply beq_eq_false_iff_ne.mpr
        intro hh
        exact ht (hh ▸ List.mem_cons_self p P)
      rw [hpt]
      rfl
    | cons a l' =>
      simp only [List.cons_append]
      rw [List.isPrefixOf_cons₂, List.isPrefixOf_cons₂]
      rw [ih (fun hm => ht (List.mem_cons_of_mem _ hm)) r]

theorem promptLen_zero {s : List Char} (h : promptPat.isPrefixOf s = false) :
    promptLen s = 0 := by
  simp [promptLen, h]

theorem evalEchoLen_zero {s : List Char} (h : evalEchoPat.isPrefixOf s = false) :
    evalEchoLen s = 0 := by
  simp [evalEchoLen, h]

theorem startupEchoLen_zero {s : List Char}
    (h : startupPatA.isPrefixOf s = false) : startupEchoLen s = 0 := by
  simp [startupEchoLen, h]

theorem cmdLen_zero {s : List Char} (h : cmdPat.isPrefixOf s = false) :
    cmdLen s = 0 := by
  simp [cmdLen, h]

theorem prompt_zero_clean {l : List Char} (r : List Char)
    (h : promptPat.isPrefixOf l = false) : promptLen (l ++ '\n' :: r) = 0 :=
  promptLen_zero (by rw [isPrefixOf_append_cons (by decide) r, h])

theorem startup_zero_clean {l : List Char} (r : List Char)
    (h : startupPatA.isPrefixOf l = false) :
    startupEchoLen (l ++ '\n' :: r) = 0 :=
  startupEchoLen_zero (by rw [isPrefixOf_append_cons (by decide) r, h])

theorem cmd_zero_clean {l : List Char} (r : List Char)
    (h : cmdPat.isPrefixOf l = false) : cmdLen (l ++ '\n' :: r) = 0 :=
  cmdLen_zero (by rw [isPrefixOf_append_cons (by decide) r, h])

theorem evalEcho_zero_clean {l : List Char} (r : List Char)
    (h : startupPatA.isPrefixOf l = false) :
    evalEchoLen (l ++ '\n' :: r) = 0 := by
  apply evalEchoLen_zero
  cases hb : evalEchoPat.isPrefixOf (l ++ '\n' :: r) with
  | false => rfl
  | true =>
    exfalso
    have hp : evalEchoPat <+: (l ++ '\n' :: r) := List.isPrefixOf_iff_prefix.mp hb
    have hpa : startupPatA <+: evalEchoPat := by decide
    have hb2 : startupPatA.isPrefixOf (l ++ '\n' :: r) = true :=
      List.isPrefixOf_iff_prefix.mpr (hpa.trans hp)
    rw [isPrefixOf_append_cons (by decide) r, h] at hb2
    exact Bool.noConfusion hb2

theorem prompt_zero_evalE (s r : List Char) :
    promptLen ((evalEchoPat ++ s ++ closePat) ++ '\n' :: r) = 0 :=
  promptLen_zero rfl

theorem prompt_zero_startE (s r : List Char) :
    promptLen ((startupPatA ++ s ++ startupPatB ++ closePat) ++ '\n' :: r) = 0 :=
  promptLen_zero rfl

theorem prompt_zero_stopE (r : List Char) :
    promptLen (cmdPat ++ '\n' :: r) = 0 :=
  promptLen_zero rfl

theorem evalEcho_zero_stopE (r : List Char) :
    evalEchoLen (cmdPat ++ '\n' :: r) = 0 :=
  evalEchoLen_zero rfl

theorem startup_zero_stopE (r : List Char) :
    startupEchoLen (cmdPat ++ '\n' :: r) = 0 :=
  startupEchoLen_zero rfl

theorem evalEcho_zero_startE {s : List Char} (r : List Char)
    (h : evalEchoPat.isPrefixOf
      (startupPatA ++ s ++ startupPatB ++ closePat) = false) :
    evalEchoLen ((startupPatA ++ s ++ startupPatB ++ closePat) ++ '\n' :: r)
      = 0 :=
  evalEchoLen_zero (by rw [isPrefixOf_append_cons (by decide) r, h])

theorem takeWhile_append_all {p : Char → Bool} :
    ∀ {a : List Char} (b : List Char), (∀ c ∈ a, p c = true) →
      (a ++ b).takeWhile p = a ++ b.takeWhile p := by
  intro a
  induction a with
  | nil => intro b _; rfl
  | cons c a ih =>
    intro b h
    simp only [List.cons_append, List.takeWhile_cons]
    rw [h c (List.mem_cons_self c a)]
    simp only [if_true]
    rw [ih b (fun x hx => h x (List.mem_cons_of_mem _ hx))]

theorem not_mem_of_contains_false {s : List Char} {c : Char}
    (h : s.contains c = false) : c ∉ s := by
  intro hm
  rw [show s.contains c = s.elem c from rfl] at h
  rw [List.elem_iff.mpr hm] at h
  exact Bool.noConfusion h

theorem quote_run_all {s : List Char} (hq : s.contains '"' = false) :
    ∀ c ∈ s, (!(c == '"')) = true := by
  intro c hc
  have hne : c ≠ '"' := fun hh => not_mem_of_contains_false hq (hh ▸ hc)
  simp [hne]

theorem bool_not_true {b : Bool} (h : (!b) = true) : b = false := by
  cases b
  · rfl
  · exact Bool.noConfusion h

theorem evalEchoLen_full (s r : List Char) (hq : s.contains '"' = false) :
    evalEchoLen ((evalEchoPat ++ s ++ closePat) ++ '\n' :: r)
      = (evalEchoPat ++ s ++ closePat).length + 1 := by
  have hshape : (evalEchoPat ++ s ++ closePat) ++ '\n' :: r
      = evalEchoPat ++ (s ++ (closePat ++ '\n' :: r)) := by
    simp [List.append_assoc]
  have hpre : evalEchoPat.isPrefixOf
      ((evalEchoPat ++ s ++ closePat) ++ '\n' :: r) = true := by
    rw [hshape]
    exact List.isPrefixOf_iff_prefix.mpr (List.prefix_append _ _)
  have hdrop1 : ((evalEchoPat ++ s ++ closePat) ++ '\n' :: r).drop
      evalEchoPat.length = s ++ (closePat ++ '\n' :: r) := by
    rw [hshape]
    exact List.drop_left _ _
  have hrun : (s ++ (closePat ++ '\n' :: r)).takeWhile (fun c => !(c == '"'))
      = s := by
    rw [takeWhile_append_all (closePat ++ '\n' :: r) (quote_run_all hq)]
    rw [show (closePat ++ '\n' :: r).takeWhile (fun c => !(c == '"')) = []
      from rfl]
    exact List.append_nil s
  have hdrop2 : (s ++ (closePat ++ '\n' :: r)).drop s.length
      = closePat ++ '\n' :: r := List.drop_left _ _
  have hclose : closePat.isPrefixOf (closePat ++ '\n' :: r) = true :=
    List.isPrefixOf_iff_prefix.mpr (List.prefix_append _ _)
  have hbase : evalEchoPat.length + s.length + closePat.length
      = (evalEchoPat ++ s ++ closePat).length := by
    simp only [List.length_append]
  have hoptNL : optNL ((evalEchoPat ++ s ++ closePat) ++ '\n' :: r)
      (evalEchoPat.length + s.length + closePat.length)
      = evalEchoPat.length + s.length + closePat.length + 1 := by
    unfold optNL
    rw [hbase, List.drop_left]
    rfl
  unfold evalEchoLen
  rw [hdrop1, hrun, hdrop2]
  rw [if_pos hpre, if_pos hclose, hoptNL]
  simp only [List.length_append]

theorem startupEchoLen_full (s r : List Char) (hq : s.contains '"' = false) :
    startupEchoLen ((startupPatA ++ s ++ startupPatB ++ closePat) ++ '\n' :: r)
      = (startupPatA ++ s ++ startupPatB ++ closePat).length + 1 := by
  have hshape : (startupPatA ++ s ++ startupPatB ++ closePat) ++ '\n' :: r
      = startupPatA ++ ((s ++ startupPatB) ++ (closePat ++ '\n' :: r)) := by
    simp [List.append_assoc]
  have hpre : startupPatA.isPrefixOf
      ((startupPatA ++ s ++ startupPatB ++ closePat) ++ '\n' :: r) = true := by
    rw [hshape]
    exact List.isPrefixOf_iff_prefix.mpr (List.prefix_append _ _)
  have hdrop1 : ((startupPatA ++ s ++ startupPatB ++ closePat) ++ '\n' :: r).drop
      startupPatA.length = (s ++ startupPatB) ++ (closePat ++ '\n' :: r) := by
    rw [hshape]
    exact List.drop_left _ _
  have hall : ∀ c ∈ s ++ startupPatB, (!(c == '"')) = true := by
    intro c hc
    rcases List.mem_append.mp hc with hc | hc
    · exact quote_run_all hq c hc
    · exact (by decide : ∀ c ∈ startupPatB, (!(c == '"')) = true) c hc
  have hrun : ((s ++ startupPatB) ++ (closePat ++ '\n' :: r)).takeWhile
      (fun c => !(c == '"')) = s ++ startupPatB := by
    rw [takeWhile_append_all (closePat ++ '\n' :: r) hall]
    rw [show (closePat ++ '\n' :: r).takeWhile (fun c => !(c == '"')) = []
      from rfl]
    exact List.append_nil _
  have hsuf : startupPatB.isSuffixOf (s ++ startupPatB) = true :=
    List.isSuffixOf_iff_suffix.mpr (List.suffix_append _ _)
  have hdrop2 : ((s ++ startupPatB) ++ (closePat ++ '\n' :: r)).drop
      (s ++ startupPatB).length = closePat ++ '\n' :: r :=
    List.drop_left _ _
  have hclose : closePat.isPrefixOf (closePat ++ '\n' :: r) = true :=
    List.isPrefixOf_iff_prefix.mpr (List.prefix_append _ _)
  have hbase : startupPatA.length + (s ++ startupPatB).length + closePat.length
      = (startupPatA ++ s ++ startupPatB ++ closePat).length := by
    simp only [List.length_append]
    omega
  have hoptNL : optNL ((startupPatA ++ s ++ startupPatB ++ closePat) ++ '\n' :: r)
      (startupPatA.length + (s ++ startupPatB).length + closePat.length)
      = startupPatA.length + (s ++ startupPatB).length + closePat.length + 1 := by
    unfold optNL
    rw [hbase, List.drop_left]
    rfl
  unfold startupEchoLen
  rw [hdrop1, hrun, hdrop2]
  rw [if_pos hpre, if_pos ⟨hsuf, hclose⟩, hoptNL]
  simp only [List.length_append]
  omega

theorem cmdLen_full (r : List Char) :
    cmdLen (cmdPat ++ '\n' :: r) = cmdPat.length + 1 := rfl

theorem render_noTerm {x : BLine} (h : x.wfB = true) :
    ∀ c ∈ x.render, isLineTerm c = false := by
  cases x with
  | clean l =>
    intro c hc
    simp only [BLine.wfB, Bool.and_eq_true] at h
    have hall := h.1.1.1
    rw [noTermB, List.all_eq_true] at hall
    exact bool_not_true (hall c hc)
  | evalE s =>
    intro c hc
    simp only [BLine.wfB, Bool.and_eq_true] at h
    have hs := h.1
    rw [noTermB, List.all_eq_true] at hs
    simp only [BLine.render] at hc
    rcases List.mem_append.mp hc with hc | hc
    · rcases List.mem_append.mp hc with hc | hc
      · exact (by decide : ∀ c ∈ evalEchoPat, isLineTerm c = false) c hc
      · exact bool_not_true (hs c hc)
    · exact (by decide : ∀ c ∈ closePat, isLineTerm c = false) c hc
  | startE s =>
    intro c hc
    simp only [BLine.wfB, Bool.and_eq_true] at h
    have hs := h.1.1
    rw [noTermB, List.all_eq_true] at hs
    simp only [BLine.render] at hc
    rcases List.mem_append.mp hc with hc | hc
    · rcases List.mem_append.mp hc with hc | hc
      · rcases List.mem_append.mp hc with hc | hc
        · exact (by decide : ∀ c ∈ startupPatA, isLineTerm c = false) c hc
        · exact bool_not_true (hs c hc)
      · exact (by decide : ∀ c ∈ startupPatB, isLineTerm c = false) c hc
    · exact (by decide : ∀ c ∈ closePat, isLineTerm c = false) c hc
  | stopE =>
    intro c hc
    exact (by decide : ∀ c ∈ cmdPat, isLineTerm c = false) c hc

theorem pass1_spec {x : BLine} (h : x.wfB = true) (r : List Char) :
    promptLen (x.render ++ '\n' :: r) = 0 := by
  cases x with
  | clean l =>
    simp only [BLine.wfB, Bool.and_eq_true] at h
    exact prompt_zero_clean r (bool_not_true h.1.1.2)
  | evalE s => exact prompt_zero_evalE s r
  | startE s => exact prompt_zero_startE s r
  | stopE => exact prompt_zero_stopE r

theorem pass2_spec {x : BLine} (h : x.wfB = true) (r : List Char) :
    ((!x.isEvalE) = true → evalEchoLen (x.render ++ '\n' :: r) = 0)
    ∧ ((!x.isEvalE) = false
        → evalEchoLen (x.render ++ '\n' :: r) = x.render.length + 1) := by
  cases x with
  | clean l =>
    refine ⟨fun _ => ?_, fun hf => by simp [BLine.isEvalE] at hf⟩
    simp only [BLine.wfB, Bool.and_eq_true] at h
    exact evalEcho_zero_clean r (bool_not_true h.1.2)
  | evalE s =>
    refine ⟨fun ht => by simp [BLine.isEvalE] at ht, fun _ => ?_⟩
    simp only [BLine.wfB, Bool.and_eq_true] at h
    exact evalEchoLen_full s r (bool_not_true h.2)
  | startE s =>
    refine ⟨fun _ => ?_, fun hf => by simp [BLine.isEvalE] at hf⟩
    simp only [BLine.wfB, Bool.and_eq_true] at h
    exact evalEcho_zero_startE r (bool_not_true h.2)
  | stopE =>
    exact ⟨fun _ => evalEcho_zero_stopE r,
      fun hf => by simp [BLine.isEvalE] at hf⟩

theorem pass3_spec {x : BLine} (h : x.wfB = true) (hne : x.isEvalE = false)
    (r : List Char) :
    ((!x.isStartE) = true → startupEchoLen (x.render ++ '\n' :: r) = 0)
    ∧ ((!x.isStartE) = false
        → startupEchoLen (x.render ++ '\n' :: r) = x.render.length + 1) := by
  cases x with
  | clean l =>
    refine ⟨fun _ => ?_, fun hf => by simp [BLine.isStartE] at hf⟩
    simp only [BLine.wfB, Bool.and_eq_true] at h
    exact startup_zero_clean r (bool_not_true h.1.2)
  | evalE s => exact absurd hne (by simp [BLine.isEvalE])
  | startE s =>
    refine ⟨fun ht => by simp [BLine.isStartE] at ht, fun _ => ?_⟩
    simp only [BLine.wfB, Bool.and_eq_true] at h
    exact startupEchoLen_full s r (bool_not_true h.1.2)
  | stopE =>
    exact ⟨fun _ => startup_zero_stopE r,
      fun hf => by simp [BLine.isStartE] at hf⟩

theorem pass4_spec {x : BLine} (h : x.wfB = true) (hne1 : x.isEvalE = false)
    (hne2 : x.isStartE = false) (r : List Char) :
    (x.keep = true → cmdLen (x.render ++ '\n' :: r) = 0)
    ∧ (x.keep = false → cmdLen (x.render ++ '\n' :: r) = x.render.length + 1) := by
  cases x with
  | clean l =>
    refine ⟨fun _ => ?_, fun hf => by simp [BLine.keep] at hf⟩
    simp only [BLine.wfB, Bool.and_eq_true] at h
    exact cmd_zero_clean r (bool_not_true h.2)
  | evalE s => exact absurd hne1 (by simp [BLine.isEvalE])
  | startE s => exact absurd hne2 (by simp [BLine.isStartE])
  | stopE =>
    exact ⟨fun ht => by simp [BLine.keep] at ht, fun _ => cmdLen_full r⟩

theorem not_evalE_of_mem {l : List BLine} {x : BLine}
    (hx : x ∈ l.filter (fun x => !x.isEvalE)) : x.isEvalE = false := by
  have h := List.of_mem_filter hx
  simpa using h

theorem not_startE_of_mem {l : List BLine} {x : BLine}
    (hx : x ∈ l.filter (fun x => !x.isStartE)) : x.isStartE = false := by
  have h := List.of_mem_filter hx
  simpa using h

theorem filter_chain (ls : List BLine) :
    (((ls.filter (fun x => !x.isEvalE)).filter
        (fun x => !x.isStartE)).filter BLine.keep)
      = ls.filter BLine.keep := by
  rw [List.filter_filter, List.filter_filter]
  have hfun : (fun (a : BLine) => (BLine.keep a && !a.isStartE) && !a.isEvalE)
      = BLine.keep := funext (fun a => by cases a <;> rfl)
  rw [hfun]

theorem passCR_no_r (s : List Char) : '\r' ∉ passCR s := by
  intro hm
  rcases List.mem_map.mp hm with ⟨c, _, hc⟩
  by_cases h : c = '\r'
  · rw [if_pos h] at hc
    exact absurd hc (by decide)
  · rw [if_neg h] at hc
    exact h hc

theorem passCRLF_noCR : ∀ {s : List Char}, '\r' ∉ s → passCRLF s = s := by
  intro s
  induction s with
  | nil => intro _; rfl
  | cons c rest ih =>
    intro h
    have hc : ¬ c = '\r' := fun hh => h (hh ▸ List.mem_cons_self c rest)
    cases rest with
    | nil => rfl
    | cons c2 rest' =>
      have hstep : passCRLF (c :: c2 :: rest') = c :: passCRLF (c2 :: rest') := by
        simp only [passCRLF]
        rw [if_neg (fun hand => hc hand.1)]
      rw [hstep, ih (fun hm => h (List.mem_cons_of_mem _ hm))]

theorem passCR_id {s : List Char} (h : '\r' ∉ s) : passCR s = s := by
  unfold passCR
  have hcong : ∀ c ∈ s, (if c = '\r' then '\n' else c) = c :=
    fun c hc => if_neg (fun (hh : c = '\r') => h (hh ▸ hc))
  calc s.map (fun c => if c = '\r' then '\n' else c)
      = s.map id := List.map_congr_left hcong
    _ = s := List.map_id s

theorem joinNL_noCR {ls : List BLine}
    (h : ∀ x ∈ ls, ∀ c ∈ x.render, isLineTerm c = false) :
    '\r' ∉ joinNL (ls.map BLine.render) := by
  intro hm
  unfold joinNL at hm
  rcases List.mem_flatten.mp hm with ⟨piece, hp, hcp⟩
  rcases List.mem_map.mp hp with ⟨l2, hl2, rfl⟩
  rcases List.mem_map.mp hl2 with ⟨x, hx, rfl⟩
  rcases List.mem_append.mp hcp with hin | hin
  · have hbad := h x hx '\r' hin
    rw [show isLineTerm '\r' = true from rfl] at hbad
    exact Bool.noConfusion hbad
  · simp at hin

/-! ## Claim C3 -/

/-- Claim C3 is refuted as stated: sanitize is not idempotent.  Stripping
the REPL prompt can expose a second prompt at the new line start, so a
second application strips further: sanitize "sc3> sc3> x" = "sc3> x" while
sanitize (sanitize "sc3> sc3> x") = "x". -/
theorem c3_counterexample :
    sanitize (sanitize ("sc3> sc3> x".data)) ≠ sanitize ("sc3> sc3> x".data) := by
  decide

/-- Claim C3 (amended): sanitize is not idempotent in general (see the
counterexample), but the rest of the claim holds: the output never
contains a carriage return (every `\r\n` and lone `\r` is normalized), and
on input consisting of newline-terminated lines — each either a
well-formed internal echo line (eval load, startup load, `CmdPeriod.run;`)
or a clean output line — sanitize removes exactly the echo lines and
preserves the clean lines and their relative order. -/
theorem c3_amended :
    (∀ s : List Char, '\r' ∉ sanitize s)
    ∧ ∀ ls : List BLine, (∀ x ∈ ls, x.wfB = true) →
        sanitize (joinNL (ls.map BLine.render))
          = joinNL ((ls.filter BLine.keep).map BLine.render) := by
  constructor
  · intro s
    exact passCR_no_r _
  · intro ls hwf
    unfold sanitize
    rw [runPass_join promptLen BLine.render (fun _ => true) ls
        (fun x hx => render_noTerm (hwf x hx))
        (fun x hx r => ⟨fun _ => pass1_spec (hwf x hx) r,
          fun hf => Bool.noConfusion hf⟩)]
    rw [List.filter_true]
    rw [runPass_join evalEchoLen BLine.render (fun x => !x.isEvalE) ls
        (fun x hx => render_noTerm (hwf x hx))
        (fun x hx r => pass2_spec (hwf x hx) r)]
    rw [runPass_join startupEchoLen BLine.render (fun x => !x.isStartE)
        (ls.filter (fun x => !x.isEvalE))
        (fun x hx => render_noTerm (hwf x (List.mem_of_mem_filter hx)))
        (fun x hx r => pass3_spec (hwf x (List.mem_of_mem_filter hx))
          (not_evalE_of_mem hx) r)]
    rw [runPass_join cmdLen BLine.render BLine.keep
        ((ls.filter (fun x => !x.isEvalE)).filter (fun x => !x.isStartE))
        (fun x hx => render_noTerm
          (hwf x (List.mem_of_mem_filter (List.mem_of_mem_filter hx))))
        (fun x hx r => pass4_spec
          (hwf x (List.mem_of_mem_filter (List.mem_of_mem_filter hx)))
          (not_evalE_of_mem (List.mem_of_mem_filter hx))
          (not_startE_of_mem hx) r)]
    have hnoCR : '\r' ∉ joinNL (((((ls.filter (fun x => !x.isEvalE)).filter
        (fun x => !x.isStartE)).filter BLine.keep)).map BLine.render) :=
      joinNL_noCR (fun x hx => render_noTerm (hwf x
        (List.mem_of_mem_filter (List.mem_of_mem_filter
          (List.mem_of_mem_filter hx)))))
    rw [passCRLF_noCR hnoCR, passCR_id hnoCR]
    rw [filter_chain]

/-- Witness for C3 (amended) on a concrete line list: the eval-echo line
and the stop-echo line are removed, the clean lines are kept in order. -/
theorem c3_witness :
    sanitize (joinNL ([BLine.clean ("hello".data),
        BLine.evalE ("123_0.scd".data), BLine.stopE,
        BLine.clean ("x = 3;".data)].map BLine.render))
      = joinNL (([BLine.clean ("hello".data),
        BLine.evalE ("123_0.scd".data), BLine.stopE,
        BLine.clean ("x = 3;".data)].filter BLine.keep).map BLine.render) :=
  c3_amended.2 _ (by decide)

end SCWeb
